import Mathlib

/-!
Verification of the study-log data store and progress aggregator.

The embedding follows the source program:
* entries are rows of the `learning_log` table (id, date, subject, topic,
  score, study_time), dates modelled as integer day numbers;
* the range filter mirrors the date comparisons of the progress chart
  (equality for "today", lower bounds of 7 and 30 days, identity for
  "all time");
* `total_time_by_subject` mirrors the pandas pipeline
  groupby(subject).sum().sort_values(descending): group keys are produced
  in ascending order, and a descending value sort is performed by reversing
  a stable ascending sort (pandas reverses the ascending argsort);
* `weakest_subject` mirrors groupby(subject).mean().idxmin(): the first
  group key (in ascending key order) attaining the minimal mean;
* `weakest_topic_for` mirrors restricting to a subject and taking the row
  at idxmin of the score column (first minimal row in store order);
* `recent` mirrors the recent-records view: a 7-day lower bound filter
  followed by a descending date sort;
* the store mirrors the SQLite table with AUTOINCREMENT ids: inserts append
  a row carrying the next sequence value, deletes clear the rows but keep
  the sequence;
* the advisory request mirrors the try/except dispatch around the outbound
  HTTP call with its 30-second timeout.
-/

namespace StudyLog

/-- One row of the `learning_log` table. -/
structure Entry where
  id : Int
  date : Int
  subject : String
  topic : String
  score : Int
  study_time : Int
  deriving DecidableEq, Repr

/-- The four chart ranges offered by the progress chart. -/
inductive RangeKind where
  | Today
  | LastWeek
  | LastMonth
  | AllTime
  deriving DecidableEq, Repr

/-- The date filter applied by the progress chart before aggregation.
The reference date is the value the source reads from the clock. -/
def filter_by_range (l : List Entry) (k : RangeKind) (d : Int) : List Entry :=
  match k with
  | .Today => l.filter (fun e => e.date = d)
  | .LastWeek => l.filter (fun e => d - 7 ≤ e.date)
  | .LastMonth => l.filter (fun e => d - 30 ≤ e.date)
  | .AllTime => l

/-- Code-point lexicographic order on subject names, the order Python uses
to compare strings. It agrees with the `≤` of `String`, stated on the
underlying character lists so that it computes. -/
def keyLe (a b : String) : Prop :=
  a.data ≤ b.data

instance : DecidableRel keyLe :=
  fun a b => inferInstanceAs (Decidable (a.data ≤ b.data))

instance : IsTotal String keyLe :=
  ⟨fun a b => le_total a.data b.data⟩

instance : IsTrans String keyLe :=
  ⟨fun _ _ _ h h' => le_trans h h'⟩

instance : IsAntisymm String keyLe :=
  ⟨fun _ _ h h' => String.toList_inj.mp (le_antisymm h h')⟩

/-- `keyLe` is the standard order on `String`. -/
theorem keyLe_iff_le (a b : String) : keyLe a b ↔ a ≤ b :=
  (@String.le_iff_toList_le a b).symm

/-- The distinct subjects of a snapshot in ascending order: pandas groupby
sorts its group keys. -/
def subjectKeys (l : List Entry) : List String :=
  List.insertionSort keyLe (l.map Entry.subject).dedup

/-- Total minutes recorded for one subject. -/
def timeSum (l : List Entry) (s : String) : Int :=
  ((l.filter (fun e => e.subject = s)).map Entry.study_time).sum

/-- groupby(subject)[study_time].sum().sort_values(descending): the
(subject, total) pairs in ascending key order, sorted by total descending.
pandas realises the descending sort by reversing the ascending argsort, so
the model reverses a stable ascending sort. -/
def total_time_by_subject (l : List Entry) : List (String × Int) :=
  (List.insertionSort (fun a b => a.2 ≤ b.2)
    ((subjectKeys l).map (fun s => (s, timeSum l s)))).reverse

/-- Sum of comprehension scores recorded for one subject. -/
def scoreSum (l : List Entry) (s : String) : Int :=
  ((l.filter (fun e => e.subject = s)).map Entry.score).sum

/-- Number of entries recorded for one subject. -/
def scoreCount (l : List Entry) (s : String) : Nat :=
  (l.filter (fun e => e.subject = s)).length

/-- Mean comprehension score of one subject (exact rational arithmetic in
place of the source's floating point). -/
def meanScore (l : List Entry) (s : String) : ℚ :=
  (scoreSum l s : ℚ) / (scoreCount l s : ℚ)

/-- The running-minimum fold that realises idxmin: scan left to right,
replacing the current best only on a strictly smaller value, so the first
occurrence of the minimum wins. -/
def minFold {α β : Type} [LinearOrder β] (f : α → β) (x : α) (xs : List α) : α :=
  xs.foldl (fun b y => if f y < f b then y else b) x

/-- groupby(subject)[score].mean().idxmin(): the first subject, in the
grouping's ascending key order, attaining the minimal mean score; `none`
when there is no data. -/
def weakest_subject (l : List Entry) : Option String :=
  match subjectKeys l with
  | [] => none
  | k :: ks => some (minFold (meanScore l) k ks)

/-- Restrict to one subject and take the topic of the row at the score
column's idxmin: the first row, in store order, with minimal score; `none`
when no row matches. -/
def weakest_topic_for (l : List Entry) (s : String) : Option String :=
  match l.filter (fun e => e.subject = s) with
  | [] => none
  | x :: xs => some (minFold Entry.score x xs).topic

/-- The recent-records view: entries of the last seven days, sorted by date
descending (again the reverse of a stable ascending sort). -/
def recent (l : List Entry) (d : Int) : List Entry :=
  (List.insertionSort (fun a b => a.date ≤ b.date)
    (l.filter (fun e => d - 7 ≤ e.date))).reverse

/-- The SQLite-backed record store: the stored rows in storage order, and
the AUTOINCREMENT sequence value the next insert will use. -/
structure Store where
  rows : List Entry
  next_id : Int
  deriving DecidableEq, Repr

/-- INSERT INTO learning_log: appends one row; the id comes from the
AUTOINCREMENT sequence, which then advances. -/
def insertEntry (s : Store) (date : Int) (subject topic : String)
    (score study_time : Int) : Store :=
  { rows := s.rows ++ [⟨s.next_id, date, subject, topic, score, study_time⟩]
    next_id := s.next_id + 1 }

/-- SELECT * FROM learning_log: every stored row in storage order. -/
def list_all (s : Store) : List Entry :=
  s.rows

/-- DELETE FROM learning_log: removes every row; an AUTOINCREMENT sequence
survives the delete. -/
def clear_all (s : Store) : Store :=
  { rows := [], next_id := s.next_id }

/-- The store invariant maintained by insertion from an empty table: every
stored id is below the sequence value. -/
def Ready (s : Store) : Prop :=
  ∀ e ∈ s.rows, e.id < s.next_id

/-- What the outbound advisory request can come back with: a response body,
a timeout, or a transport failure. -/
inductive ApiOutcome where
  | success (text : String)
  | timeout
  | transportError (msg : String)
  deriving DecidableEq, Repr

/-- The three failure modes the caller distinguishes. -/
inductive ApiFailure where
  | timeout
  | transportError (msg : String)
  | emptyResponse
  deriving DecidableEq, Repr

/-- The fixed timeout passed to the outbound request, in seconds. -/
def requestTimeoutSeconds : Nat := 30

/-- The try/except dispatch around the advisory request: a timeout and a
transport error are caught, an empty extracted suggestion is reported as an
error, any other response yields the suggestion text. -/
def suggest_tasks (outcome : ApiOutcome) : Except ApiFailure String :=
  match outcome with
  | .success text => if text = "" then .error .emptyResponse else .ok text
  | .timeout => .error .timeout
  | .transportError m => .error (.transportError m)

/-- The message shown for each failure mode. -/
def failureMessage : ApiFailure → String
  | .timeout => "⏰ AIからの応答がタイムアウトしました。もう一度お試しください。"
  | .transportError m => "API呼び出し中にエラーが発生しました: " ++ m
  | .emptyResponse => "❌ Gemini APIの応答が空でした。プロンプトを見直すか、APIの制限を確認してください。"

/-- The three-entry scenario of the specification, with 2024-01-01 as day 0
and 2024-01-02 as day 1. -/
def demoEntries : List Entry :=
  [⟨1, 0, "Math", "Algebra", 2, 30⟩, ⟨2, 0, "Math", "Geometry", 5, 60⟩,
   ⟨3, 1, "Art", "Color", 4, 20⟩]

/-- Two subjects with equal totals, first encountered in the order A, B. -/
def tieEntries : List Entry :=
  [⟨1, 0, "A", "t", 3, 10⟩, ⟨2, 0, "B", "t", 3, 10⟩]

end StudyLog

namespace StudyLog

/-- The running-minimum fold either keeps the seed, which then bounds every
scanned value, or lands on a scanned value that is strictly below the seed,
strictly below everything before it and at most everything after it. -/
theorem minFold_spec {α β : Type} [LinearOrder β] (f : α → β) :
    ∀ (xs : List α) (x : α),
      (minFold f x xs = x ∧ ∀ y ∈ xs, f x ≤ f y) ∨
      (∃ pre r post, xs = pre ++ r :: post ∧ minFold f x xs = r ∧ f r < f x ∧
        (∀ y ∈ pre, f r < f y) ∧ (∀ y ∈ post, f r ≤ f y))
  | [], x => Or.inl ⟨rfl, by simp⟩
  | y :: ys, x => by
    have hstep : minFold f x (y :: ys) = minFold f (if f y < f x then y else x) ys := rfl
    by_cases h : f y < f x
    · rw [if_pos h] at hstep
      rcases minFold_spec f ys y with ⟨he, hall⟩ | ⟨pre, r, post, hys, hres, hlt, hpre, hpost⟩
      · exact Or.inr ⟨[], y, ys, by simp, hstep.trans he, h, by simp, hall⟩
      · refine Or.inr ⟨y :: pre, r, post, by simp [hys], hstep.trans hres, lt_trans hlt h, ?_,
          hpost⟩
        intro z hz
        rcases List.mem_cons.mp hz with rfl | hz
        · exact hlt
        · exact hpre z hz
    · rw [if_neg h] at hstep
      rcases minFold_spec f ys x with ⟨he, hall⟩ | ⟨pre, r, post, hys, hres, hlt, hpre, hpost⟩
      · refine Or.inl ⟨hstep.trans he, ?_⟩
        intro z hz
        rcases List.mem_cons.mp hz with rfl | hz
        · exact le_of_not_lt h
        · exact hall z hz
      · refine Or.inr ⟨y :: pre, r, post, by simp [hys], hstep.trans hres, hlt, ?_, hpost⟩
        intro z hz
        rcases List.mem_cons.mp hz with rfl | hz
        · exact lt_of_lt_of_le hlt (le_of_not_lt h)
        · exact hpre z hz

/-- idxmin is the first occurrence of the minimum: everything before it is
strictly larger, everything after it no smaller. -/
theorem minFold_first {α β : Type} [LinearOrder β] (f : α → β) (x : α) (xs : List α) :
    ∃ pre post, x :: xs = pre ++ minFold f x xs :: post ∧
      (∀ y ∈ pre, f (minFold f x xs) < f y) ∧ (∀ y ∈ post, f (minFold f x xs) ≤ f y) := by
  rcases minFold_spec f xs x with ⟨he, hall⟩ | ⟨pre, r, post, hys, hres, hlt, hpre, hpost⟩
  · refine ⟨[], xs, by rw [he]; rfl, by simp, ?_⟩
    rw [he]
    exact hall
  · refine ⟨x :: pre, post, ?_, ?_, ?_⟩
    · rw [hres, hys]
      rfl
    · intro z hz
      rw [hres]
      rcases List.mem_cons.mp hz with rfl | hz
      · exact hlt
      · exact hpre z hz
    · intro z hz
      rw [hres]
      exact hpost z hz

/-- The value picked by the fold is among the scanned values. -/
theorem minFold_mem {α β : Type} [LinearOrder β] (f : α → β) (x : α) (xs : List α) :
    minFold f x xs ∈ x :: xs := by
  obtain ⟨pre, post, hdec, -, -⟩ := minFold_first f x xs
  rw [hdec]
  simp

/-- The value picked by the fold attains the minimum. -/
theorem minFold_le {α β : Type} [LinearOrder β] (f : α → β) (x : α) (xs : List α) :
    ∀ y ∈ x :: xs, f (minFold f x xs) ≤ f y := by
  obtain ⟨pre, post, hdec, hpre, hpost⟩ := minFold_first f x xs
  intro y hy
  rw [hdec] at hy
  rcases List.mem_append.mp hy with hy | hy
  · exact le_of_lt (hpre y hy)
  · rcases List.mem_cons.mp hy with rfl | hy
    · exact le_rfl
    · exact hpost y hy

/-- Claim C1: the range filter keeps, for Today, exactly the entries dated
at the reference date; for LastWeek exactly those dated at least seven days
before it; for LastMonth exactly those dated at least thirty days before
it; AllTime is the identity; every output is a subsequence of the input
(the input itself is never changed); an empty input gives an empty output;
and on a list dated entirely at the reference date Today keeps everything,
while on a list dated entirely the day before it keeps nothing. -/
theorem filter_by_range_spec (l : List Entry) (d : Int) :
    (∀ e, e ∈ filter_by_range l RangeKind.Today d ↔ e ∈ l ∧ e.date = d) ∧
    (∀ e, e ∈ filter_by_range l RangeKind.LastWeek d ↔ e ∈ l ∧ d - 7 ≤ e.date) ∧
    (∀ e, e ∈ filter_by_range l RangeKind.LastMonth d ↔ e ∈ l ∧ d - 30 ≤ e.date) ∧
    filter_by_range l RangeKind.AllTime d = l ∧
    (∀ k, filter_by_range [] k d = []) ∧
    (∀ k, (filter_by_range l k d).Sublist l) ∧
    ((∀ e ∈ l, e.date = d) → filter_by_range l RangeKind.Today d = l) ∧
    ((∀ e ∈ l, e.date = d - 1) → filter_by_range l RangeKind.Today d = []) := by
  refine ⟨?_, ?_, ?_, rfl, ?_, ?_, ?_, ?_⟩
  · intro e
    simp [filter_by_range, List.mem_filter]
  · intro e
    simp [filter_by_range, List.mem_filter]
  · intro e
    simp [filter_by_range, List.mem_filter]
  · intro k
    cases k <;> rfl
  · intro k
    cases k <;> first
      | exact List.filter_sublist l
      | exact List.Sublist.refl l
  · intro h
    simp only [filter_by_range]
    rw [List.filter_eq_self]
    intro e he
    simp [h e he]
  · intro h
    simp only [filter_by_range]
    rw [List.filter_eq_nil_iff]
    intro e he
    have := h e he
    simp only [this, decide_eq_true_eq]
    omega

/-- Witness for C1 at a concrete input. -/
theorem filter_by_range_spec_witness :
    filter_by_range [⟨1, 5, "X", "t", 3, 0⟩] RangeKind.Today 5 = [⟨1, 5, "X", "t", 3, 0⟩] :=
  (filter_by_range_spec [⟨1, 5, "X", "t", 3, 0⟩] 5).2.2.2.2.2.2.1 (by decide)

/-- Claim C8: clearing the store leaves nothing to list, whatever was
stored before. -/
theorem clear_all_list_all_empty (s : Store) : list_all (clear_all s) = [] :=
  rfl

/-- Claim C4 (supporting theorem): the aggregation results genuinely depend
on the reference date. On one and the same stored list, the Today filter
and the recent view give different results for clock dates 0 and 1 or 8, so
reading the clock inside the operations (as the source does, instead of
taking the date as a parameter) makes identical-input runs disagree across
a date change. -/
theorem aggregators_depend_on_clock :
    filter_by_range [⟨1, 0, "X", "t", 3, 5⟩] RangeKind.Today 0 = [⟨1, 0, "X", "t", 3, 5⟩] ∧
    filter_by_range [⟨1, 0, "X", "t", 3, 5⟩] RangeKind.Today 1 = [] ∧
    recent [⟨1, 0, "X", "t", 3, 5⟩] 0 = [⟨1, 0, "X", "t", 3, 5⟩] ∧
    recent [⟨1, 0, "X", "t", 3, 5⟩] 8 = [] := by
  refine ⟨rfl, rfl, rfl, rfl⟩

/-- Claim C10: the LastWeek and LastMonth filters and the recent view have
no upper date bound: an entry dated strictly after the reference date is
kept by all three. -/
theorem future_entries_included (l : List Entry) (d : Int) (e : Entry)
    (hmem : e ∈ l) (hfut : d < e.date) :
    e ∈ filter_by_range l RangeKind.LastWeek d ∧
    e ∈ filter_by_range l RangeKind.LastMonth d ∧
    e ∈ recent l d := by
  refine ⟨?_, ?_, ?_⟩
  · simp only [filter_by_range, List.mem_filter, decide_eq_true_eq]
    exact ⟨hmem, by omega⟩
  · simp only [filter_by_range, List.mem_filter, decide_eq_true_eq]
    exact ⟨hmem, by omega⟩
  · simp only [recent, List.mem_reverse, List.mem_insertionSort, List.mem_filter,
      decide_eq_true_eq]
    exact ⟨hmem, by omega⟩

/-- Witness for C10 at a concrete input. -/
theorem future_entries_included_witness :
    ⟨1, 9, "X", "t", 3, 5⟩ ∈ filter_by_range [⟨1, 9, "X", "t", 3, 5⟩] RangeKind.LastWeek 2 ∧
    ⟨1, 9, "X", "t", 3, 5⟩ ∈ filter_by_range [⟨1, 9, "X", "t", 3, 5⟩] RangeKind.LastMonth 2 ∧
    (⟨1, 9, "X", "t", 3, 5⟩ : Entry) ∈ recent [⟨1, 9, "X", "t", 3, 5⟩] 2 :=
  future_entries_included [⟨1, 9, "X", "t", 3, 5⟩] 2 ⟨1, 9, "X", "t", 3, 5⟩ (by simp)
    (by decide)

end StudyLog

namespace StudyLog

/-- Claim C5: inserting into a ready store appends exactly one entry with
the fresh sequence id; every previously stored entry is still there
unaltered, the listed ids stay pairwise distinct, the fresh id is strictly
above every stored id, and the sequence strictly advances so the id is
never reused. -/
theorem insert_list_all_spec (s : Store) (d : Int) (sub top : String) (sc t : Int)
    (hr : Ready s) (hnd : (s.rows.map Entry.id).Nodup) :
    list_all (insertEntry s d sub top sc t) =
      list_all s ++ [⟨s.next_id, d, sub, top, sc, t⟩] ∧
    (∀ e ∈ list_all s, e ∈ list_all (insertEntry s d sub top sc t)) ∧
    ((list_all (insertEntry s d sub top sc t)).map Entry.id).Nodup ∧
    (∀ e ∈ list_all s, e.id < s.next_id) ∧
    Ready (insertEntry s d sub top sc t) ∧
    s.next_id < (insertEntry s d sub top sc t).next_id := by
  refine ⟨rfl, ?_, ?_, hr, ?_, ?_⟩
  · intro e he
    simp only [list_all, insertEntry, List.mem_append]
    exact Or.inl he
  · simp only [list_all, insertEntry, List.map_append, List.map_cons, List.map_nil]
    rw [List.nodup_append]
    refine ⟨hnd, List.nodup_singleton _, ?_⟩
    intro a ha hb
    simp only [List.mem_singleton] at hb
    subst hb
    obtain ⟨e, he, hid⟩ := List.mem_map.mp ha
    have := hr e he
    omega
  · intro e he
    simp only [insertEntry, list_all, List.mem_append, List.mem_singleton] at he
    rcases he with he | rfl
    · have := hr e he
      simp only [insertEntry]
      omega
    · simp [insertEntry]
  · simp only [insertEntry]
    omega

/-- Witness for C5 at a concrete store. -/
theorem insert_list_all_spec_witness :
    list_all (insertEntry ⟨[⟨0, 0, "A", "t", 3, 0⟩], 1⟩ 5 "B" "u" 4 10) =
      list_all ⟨[⟨0, 0, "A", "t", 3, 0⟩], 1⟩ ++ [⟨1, 5, "B", "u", 4, 10⟩] :=
  (insert_list_all_spec ⟨[⟨0, 0, "A", "t", 3, 0⟩], 1⟩ 5 "B" "u" 4 10
    (show ∀ e ∈ ([⟨0, 0, "A", "t", 3, 0⟩] : List Entry), e.id < 1 by decide)
    (by decide)).1

/-- Claim C6: when no entry matches the subject the weakest-topic lookup
returns the no-data sentinel; otherwise it returns the topic of a matching
entry of minimal score, and that entry is the first minimal one in store
order (everything before it among the matching entries scores strictly
higher, everything after it no lower). -/
theorem weakest_topic_for_spec (l : List Entry) (s : String) :
    ((∀ e ∈ l, e.subject ≠ s) → weakest_topic_for l s = none) ∧
    ((∃ e ∈ l, e.subject = s) → ∃ m pre post,
      weakest_topic_for l s = some m.topic ∧ m ∈ l ∧ m.subject = s ∧
      l.filter (fun e => e.subject = s) = pre ++ m :: post ∧
      (∀ y ∈ pre, m.score < y.score) ∧ (∀ y ∈ post, m.score ≤ y.score)) := by
  constructor
  · intro h
    have hfil : l.filter (fun e => e.subject = s) = [] := by
      rw [List.filter_eq_nil_iff]
      intro a ha
      simpa using h a ha
    simp [weakest_topic_for, hfil]
  · rintro ⟨e, he, hes⟩
    cases hfil : l.filter (fun e => e.subject = s) with
    | nil =>
      exfalso
      have : e ∈ l.filter (fun e => e.subject = s) := by
        simp [List.mem_filter, he, hes]
      rw [hfil] at this
      exact absurd this (List.not_mem_nil e)
    | cons x xs =>
      refine ⟨minFold Entry.score x xs, ?_⟩
      have hmem : minFold Entry.score x xs ∈ l.filter (fun e => e.subject = s) := by
        rw [hfil]
        exact minFold_mem Entry.score x xs
      rw [List.mem_filter] at hmem
      obtain ⟨pre, post, hdec, hpre, hpost⟩ := minFold_first Entry.score x xs
      refine ⟨pre, post, ?_, hmem.1, by simpa using hmem.2, ?_, hpre, hpost⟩
      · simp [weakest_topic_for, hfil]
      · exact hdec

/-- Witness for C6 on the specification's scenario. -/
theorem weakest_topic_for_spec_witness :
    ∃ m pre post,
      weakest_topic_for demoEntries "Math" = some m.topic ∧ m ∈ demoEntries ∧
      m.subject = "Math" ∧
      demoEntries.filter (fun e => e.subject = "Math") = pre ++ m :: post ∧
      (∀ y ∈ pre, m.score < y.score) ∧ (∀ y ∈ post, m.score ≤ y.score) :=
  (weakest_topic_for_spec demoEntries "Math").2
    ⟨⟨1, 0, "Math", "Algebra", 2, 30⟩, by decide, rfl⟩

/-- A string whose first character is not the first character of the
transport-error prefix differs from every transport-error message. -/
theorem ne_transport_of_head (a m : String) (h : a.data.head? ≠ some 'A') :
    a ≠ "API呼び出し中にエラーが発生しました: " ++ m := by
  intro he
  apply h
  have hd := congrArg String.data he
  rw [String.data_append] at hd
  have h2 := congrArg List.head? hd
  rw [List.head?_append] at h2
  exact h2.trans rfl

/-- Claim C9: the outbound request carries a fixed 30-second timeout, and
the three failure modes — timeout, transport error, empty response — are
each reported as a distinct, non-fatal error value (with pairwise distinct
displayed messages, whatever the transport error text), while a non-empty
response yields the suggestion text. -/
theorem suggest_tasks_failure_modes :
    requestTimeoutSeconds = 30 ∧
    suggest_tasks ApiOutcome.timeout = Except.error ApiFailure.timeout ∧
    (∀ m, suggest_tasks (ApiOutcome.transportError m) =
      Except.error (ApiFailure.transportError m)) ∧
    suggest_tasks (ApiOutcome.success "") = Except.error ApiFailure.emptyResponse ∧
    (∀ txt, txt ≠ "" → suggest_tasks (ApiOutcome.success txt) = Except.ok txt) ∧
    (∀ m, failureMessage ApiFailure.timeout ≠ failureMessage (ApiFailure.transportError m)) ∧
    (∀ m, failureMessage ApiFailure.emptyResponse ≠
      failureMessage (ApiFailure.transportError m)) ∧
    failureMessage ApiFailure.timeout ≠ failureMessage ApiFailure.emptyResponse := by
  refine ⟨rfl, rfl, fun m => rfl, rfl, ?_, ?_, ?_, by decide⟩
  · intro txt h
    simp [suggest_tasks, h]
  · intro m
    exact ne_transport_of_head _ m (by decide)
  · intro m
    exact ne_transport_of_head _ m (by decide)

/-- Witness for C9: a non-empty response passes through as a suggestion. -/
theorem suggest_tasks_failure_modes_witness :
    suggest_tasks (ApiOutcome.success "read a book") = Except.ok "read a book" :=
  suggest_tasks_failure_modes.2.2.2.2.1 "read a book" (by decide)

end StudyLog

namespace StudyLog

/-- A subject appears among the group keys exactly when some entry carries
it. -/
theorem mem_subjectKeys (l : List Entry) (s : String) :
    s ∈ subjectKeys l ↔ s ∈ l.map Entry.subject := by
  unfold subjectKeys
  rw [List.mem_insertionSort, List.mem_dedup]

/-- The group keys come out in ascending code-point order. -/
theorem subjectKeys_sorted (l : List Entry) : (subjectKeys l).Sorted keyLe :=
  List.sorted_insertionSort keyLe _

/-- The group keys are a permutation of the deduplicated subject column. -/
theorem subjectKeys_perm (l : List Entry) :
    (subjectKeys l).Perm (l.map Entry.subject).dedup :=
  List.perm_insertionSort keyLe _

/-- Claim C2: on no data the weakest-subject computation returns the
sentinel; on a non-empty snapshot it returns a recorded subject whose mean
score is minimal, and among subjects tied at the minimal mean it is the one
sorting first; on the specification's three-entry scenario it returns Math
(mean 7/2 against 4). -/
theorem weakest_subject_spec (l : List Entry) :
    weakest_subject [] = none ∧
    (l ≠ [] → ∃ s, weakest_subject l = some s ∧ s ∈ l.map Entry.subject ∧
      (∀ t ∈ l.map Entry.subject, meanScore l s ≤ meanScore l t) ∧
      (∀ t ∈ l.map Entry.subject, meanScore l t = meanScore l s → s ≤ t)) ∧
    weakest_subject demoEntries = some "Math" := by
  refine ⟨rfl, ?_, ?_⟩
  · intro hne
    cases hk : subjectKeys l with
    | nil =>
      exfalso
      cases l with
      | nil => exact hne rfl
      | cons e l' =>
        have hmem : e.subject ∈ subjectKeys (e :: l') := by
          rw [mem_subjectKeys]
          simp
        rw [hk] at hmem
        exact absurd hmem (List.not_mem_nil _)
    | cons k ks =>
      refine ⟨minFold (meanScore l) k ks, ?_, ?_, ?_, ?_⟩
      · simp [weakest_subject, hk]
      · rw [← mem_subjectKeys, hk]
        exact minFold_mem _ k ks
      · intro t ht
        rw [← mem_subjectKeys l t, hk] at ht
        exact minFold_le _ k ks t ht
      · intro t ht heq
        rw [← mem_subjectKeys l t, hk] at ht
        obtain ⟨pre, post, hdec, hpre, hpost⟩ := minFold_first (meanScore l) k ks
        have hsorted : (pre ++ minFold (meanScore l) k ks :: post).Sorted keyLe := by
          have := subjectKeys_sorted l
          rw [hk, hdec] at this
          exact this
        rw [hdec] at ht
        rcases List.mem_append.mp ht with ht | ht
        · exact absurd heq (ne_of_gt (hpre t ht))
        · rcases List.mem_cons.mp ht with rfl | ht
          · exact le_rfl
          · have hsub : (minFold (meanScore l) k ks :: post).Sorted keyLe :=
              hsorted.sublist (List.sublist_append_right pre _)
            exact (keyLe_iff_le _ t).mp (List.rel_of_sorted_cons hsub t ht)
  · have hk : subjectKeys demoEntries = ["Art", "Math"] := rfl
    have h1 : scoreSum demoEntries "Math" = 7 := rfl
    have h2 : scoreCount demoEntries "Math" = 2 := rfl
    have h3 : scoreSum demoEntries "Art" = 4 := rfl
    have h4 : scoreCount demoEntries "Art" = 1 := rfl
    have hlt : meanScore demoEntries "Math" < meanScore demoEntries "Art" := by
      simp only [meanScore, h1, h2, h3, h4]
      norm_num
    simp only [weakest_subject, hk, minFold, List.foldl_cons, List.foldl_nil]
    rw [if_pos hlt]

/-- Witness for C2 on a concrete non-empty snapshot. -/
theorem weakest_subject_spec_witness :
    ∃ s, weakest_subject demoEntries = some s ∧
      s ∈ demoEntries.map Entry.subject ∧
      (∀ t ∈ demoEntries.map Entry.subject,
        meanScore demoEntries s ≤ meanScore demoEntries t) ∧
      (∀ t ∈ demoEntries.map Entry.subject,
        meanScore demoEntries t = meanScore demoEntries s → s ≤ t) :=
  (weakest_subject_spec demoEntries).2.1 (by decide)

/-- Claim C7: the weakest-subject computation only depends on the multiset
of entries: permuting the snapshot does not change the result. -/
theorem weakest_subject_perm_invariant (l₁ l₂ : List Entry) (h : l₁.Perm l₂) :
    weakest_subject l₁ = weakest_subject l₂ := by
  have hkeys : subjectKeys l₁ = subjectKeys l₂ := by
    refine List.eq_of_perm_of_sorted ?_ (subjectKeys_sorted l₁) (subjectKeys_sorted l₂)
    exact (subjectKeys_perm l₁).trans (((h.map Entry.subject).dedup).trans
      (subjectKeys_perm l₂).symm)
  have hmean : meanScore l₁ = meanScore l₂ := by
    funext s
    have hf := h.filter (fun e => e.subject = s)
    have hsum : scoreSum l₁ s = scoreSum l₂ s := (hf.map Entry.score).sum_eq
    have hcnt : scoreCount l₁ s = scoreCount l₂ s := hf.length_eq
    simp only [meanScore, hsum, hcnt]
  simp only [weakest_subject, hkeys, hmean]

/-- Witness for C7 on a concrete transposition. -/
theorem weakest_subject_perm_invariant_witness :
    weakest_subject [⟨1, 0, "A", "t", 2, 0⟩, ⟨2, 0, "B", "u", 5, 0⟩] =
      weakest_subject [⟨2, 0, "B", "u", 5, 0⟩, ⟨1, 0, "A", "t", 2, 0⟩] :=
  weakest_subject_perm_invariant _ _ (List.Perm.swap _ _ _)

end StudyLog

namespace StudyLog

/-- Inserting into a list sorted by value and strictly increasing on an
auxiliary key, where the inserted element's key is below every present key,
keeps the list sorted by value with key ties in ascending key order: the
insertion point of a stable sort is before every equal value. -/
theorem pairwise_lex_orderedInsert {α : Type} (val : α → Int) (key : α → List Char)
    [DecidableRel (fun a b : α => val a ≤ val b)] (x : α) (m : List α)
    (hp : m.Pairwise (fun a b => val a < val b ∨ (val a = val b ∧ key a < key b)))
    (hk : ∀ y ∈ m, key x < key y) :
    (List.orderedInsert (fun a b => val a ≤ val b) x m).Pairwise
      (fun a b => val a < val b ∨ (val a = val b ∧ key a < key b)) := by
  induction m with
  | nil => simp
  | cons b m' ih =>
    have hb := List.pairwise_cons.mp hp
    rw [List.orderedInsert]
    by_cases h : val x ≤ val b
    · rw [if_pos h]
      refine List.pairwise_cons.mpr ⟨?_, hp⟩
      intro z hz
      rcases List.mem_cons.mp hz with rfl | hz
      · rcases lt_or_eq_of_le h with hlt | heq
        · exact Or.inl hlt
        · exact Or.inr ⟨heq, hk z (List.mem_cons_self _ _)⟩
      · have hbz : val b ≤ val z := by
          rcases hb.1 z hz with hlt | ⟨heq, -⟩
          · exact le_of_lt hlt
          · exact le_of_eq heq
        rcases lt_or_eq_of_le (le_trans h hbz) with hlt | heq
        · exact Or.inl hlt
        · exact Or.inr ⟨heq, hk z (List.mem_cons_of_mem b hz)⟩
    · rw [if_neg h]
      refine List.pairwise_cons.mpr ⟨?_, ih hb.2 (fun y hy => hk y (List.mem_cons_of_mem b hy))⟩
      intro z hz
      rcases (List.mem_orderedInsert _).mp hz with rfl | hz
      · exact Or.inl (lt_of_not_le h)
      · exact hb.1 z hz

/-- A stable ascending value sort of a list whose keys are strictly
increasing is sorted lexicographically by (value, key). -/
theorem pairwise_lex_insertionSort {α : Type} (val : α → Int) (key : α → List Char)
    [DecidableRel (fun a b : α => val a ≤ val b)] (l : List α)
    (h : l.Pairwise (fun a b => key a < key b)) :
    (List.insertionSort (fun a b => val a ≤ val b) l).Pairwise
      (fun a b => val a < val b ∨ (val a = val b ∧ key a < key b)) := by
  induction l with
  | nil => simp
  | cons x xs ih =>
    have hx := List.pairwise_cons.mp h
    rw [List.insertionSort]
    exact pairwise_lex_orderedInsert val key x _ (ih hx.2)
      (fun y hy => hx.1 y ((List.mem_insertionSort _).mp hy))

/-- The group keys are pairwise strictly increasing in code-point order. -/
theorem subjectKeys_pairwise_lt (l : List Entry) :
    (subjectKeys l).Pairwise (fun a b => a.data < b.data) := by
  have hnd : (subjectKeys l).Nodup :=
    (subjectKeys_perm l).symm.nodup (List.nodup_dedup _)
  have hs := (subjectKeys_sorted l).and hnd
  refine hs.imp ?_
  intro a b hab
  exact lt_of_le_of_ne hab.1 (fun hd => hab.2 (String.toList_inj.mp hd))

/-- Claim C3, as frozen, is false on the code: with the two subjects first
encountered in the order A then B carrying equal totals, the result lists B
first, not the first-encountered A — pandas reverses a stable ascending
argsort, so equal totals come out in reversed (descending) key order. -/
theorem total_time_by_subject_counterexample :
    total_time_by_subject tieEntries = [("B", 10), ("A", 10)] ∧
    total_time_by_subject tieEntries ≠ [("A", 10), ("B", 10)] := by
  refine ⟨rfl, fun h => ?_⟩
  exact absurd ((show total_time_by_subject tieEntries = [("B", 10), ("A", 10)]
    from rfl).symm.trans h) (by decide)

/-- Claim C3 (amended): the per-subject totals list one pair per recorded
subject, each carrying the sum of that subject's study times, ordered by
total descending with subjects tied on total in descending code-point
order (the reverse of the grouping's ascending key order — not
first-encountered order); an empty input yields an empty mapping; when
every study time is 0, every total is 0; and the specification's scenario
yields Math 90 before Art 20. -/
theorem total_time_by_subject_spec (l : List Entry) :
    total_time_by_subject [] = [] ∧
    ((total_time_by_subject l).map Prod.fst).Perm (l.map Entry.subject).dedup ∧
    (∀ p ∈ total_time_by_subject l, p.2 = timeSum l p.1) ∧
    (total_time_by_subject l).Pairwise
      (fun a b => b.2 < a.2 ∨ (a.2 = b.2 ∧ b.1 < a.1)) ∧
    ((∀ e ∈ l, e.study_time = 0) → ∀ p ∈ total_time_by_subject l, p.2 = 0) ∧
    total_time_by_subject demoEntries = [("Math", 90), ("Art", 20)] := by
  have hval : ∀ p ∈ total_time_by_subject l, p.2 = timeSum l p.1 := by
    intro p hp
    rw [total_time_by_subject, List.mem_reverse, List.mem_insertionSort] at hp
    obtain ⟨s, -, rfl⟩ := List.mem_map.mp hp
    rfl
  refine ⟨rfl, ?_, hval, ?_, ?_, rfl⟩
  · rw [total_time_by_subject, List.map_reverse]
    refine (List.reverse_perm _).trans ?_
    refine ((List.perm_insertionSort _ _).map Prod.fst).trans ?_
    rw [List.map_map]
    have hid : (Prod.fst ∘ fun s : String => (s, timeSum l s)) = id := rfl
    rw [hid, List.map_id]
    exact subjectKeys_perm l
  · rw [total_time_by_subject, List.pairwise_reverse]
    have hkeys : (((subjectKeys l).map (fun s => (s, timeSum l s))).Pairwise
        (fun a b : String × Int => a.1.data < b.1.data)) := by
      rw [List.pairwise_map]
      exact subjectKeys_pairwise_lt l
    have hlex := pairwise_lex_insertionSort (fun p : String × Int => p.2)
      (fun p : String × Int => p.1.data) _ hkeys
    refine hlex.imp ?_
    intro a b hab
    rcases hab with hlt | ⟨heq, hk⟩
    · exact Or.inl hlt
    · exact Or.inr ⟨heq.symm, String.lt_iff_toList_lt.mpr hk⟩
  · intro h p hp
    rw [hval p hp]
    apply List.sum_eq_zero
    intro x hx
    obtain ⟨e, he, rfl⟩ := List.mem_map.mp hx
    exact h e (List.mem_of_mem_filter he)

/-- Witness for the amended C3: on an all-zero snapshot every total is 0. -/
theorem total_time_by_subject_spec_witness :
    ∀ p ∈ total_time_by_subject [⟨1, 0, "A", "t", 3, 0⟩], p.2 = 0 :=
  (total_time_by_subject_spec [⟨1, 0, "A", "t", 3, 0⟩]).2.2.2.2.1 (by decide)

end StudyLog
